import Mathlib

set_option maxHeartbeats 1000000

/-!
Verification development for the mdmake static-site compiler
(src/src/main.rs).  Strings from the program are modelled as lists of
characters; the Unix path semantics of the Rust standard library
(is_relative, extension, with_extension, components) are embedded
directly, since the program applies them to link URLs and file paths.
-/

/-- Character strings are modelled as lists of characters. -/
abbrev Str := List Char

/-- ASCII lowercasing of one character, as in the Rust method
to_ascii_lowercase: only the 26 ASCII uppercase letters are mapped. -/
def asciiLower (c : Char) : Char :=
  if c.isUpper then Char.ofNat (c.toNat + 32) else c

/-- Split a string at every slash; the raw chunked view of a Unix path
(empty chunks correspond to repeated or leading slashes). -/
def splitOnSlash : Str → List Str
  | [] => [[]]
  | c :: rest =>
    match splitOnSlash rest with
    | [] => [[c]]
    | g :: gs => if c = '/' then [] :: g :: gs else (c :: g) :: gs

/-- The components of a path that survive normalisation, in order: empty
chunks (extra slashes) and single-dot chunks are dropped, as in the Rust
std components iterator (a leading current-directory component is
accounted separately in componentsCount). -/
def pathChunks (p : Str) : List Str :=
  (splitOnSlash p).filter (fun c => decide (c ≠ [] ∧ c ≠ ['.']))

/-- The final normal component of a Unix path, as Rust std
Path::file_name: the last chunk after dropping empty and single-dot
chunks, unless that chunk is the parent-directory token. -/
def fileName (p : Str) : Option Str :=
  match (pathChunks p).getLast? with
  | none => none
  | some f => if f = ['.', '.'] then none else some f

/-- Index of the last dot in a file name, scanning with an accumulator. -/
def lastDotIdxAux : Str → Nat → Option Nat
  | [], _ => none
  | c :: rest, i =>
    match lastDotIdxAux rest (i + 1) with
    | some j => some j
    | none => if c = '.' then some i else none

/-- Index of the last dot in a file name. -/
def lastDotIdx (f : Str) : Option Nat := lastDotIdxAux f 0

/-- The extension of a path, as Rust std Path::extension: the part of
the file name after the last dot, provided the part before that dot is
nonempty; a name with no dot, or a leading-dot-only name, has none. -/
def pathExt (p : Str) : Option Str :=
  match fileName p with
  | none => none
  | some f =>
    match lastDotIdx f with
    | none => none
    | some 0 => none
    | some i => some (f.drop (i + 1))

/-- Length of the file stem inside a file name, per the Rust helper
rsplit_file_at_dot: everything before the last dot, or the whole name
when there is no dot or the only dot is leading. -/
def stemLen (f : Str) : Nat :=
  match lastDotIdx f with
  | none => f.length
  | some 0 => f.length
  | some i => i

/-- Drop trailing slashes and trailing single-dot chunks from a
reversed path; used to locate the file name inside the raw buffer the
way Rust set_extension truncates it. -/
def dropJunkRev : Str → Str
  | '/' :: rest => dropJunkRev rest
  | '.' :: '/' :: rest => dropJunkRev rest
  | s => s

/-- Remove trailing slashes and trailing single-dot chunks of a path. -/
def stripJunk (p : Str) : Str := (dropJunkRev p.reverse).reverse

/-- Replace the extension of a path, as Rust PathBuf::set_extension and
Path::with_extension with a nonempty new extension: truncate the raw
buffer right after the file stem and append a dot and the new
extension; a path without a file name is returned unchanged. -/
def withExt (p : Str) (newExt : Str) : Str :=
  match fileName p with
  | none => p
  | some f =>
    let stripped := stripJunk p
    (stripped.take (stripped.length - f.length + stemLen f)) ++ '.' :: newExt

/-- True when the path has no root, as Rust Path::is_relative on Unix:
every string not starting with a slash is relative, including URLs such
as https://example.com/readme.md. -/
def isRelative : Str → Bool
  | '/' :: _ => false
  | _ => true

/-- Does the string contain an adjacent close-bracket open-paren pair. -/
def hasRB : Str → Bool
  | [] => false
  | c :: rest =>
    if c = ']' ∧ rest.head? = some '(' then true else hasRB rest

/-- Split a string at the LAST adjacent close-bracket open-paren pair,
returning the parts before and after the pair; none when no such pair
occurs.  The last occurrence realises the greedy first capture group of
the regex used in the source. -/
def splitLastRB : Str → Option (Str × Str)
  | [] => none
  | c :: rest =>
    match splitLastRB rest with
    | some (a, b) => some (c :: a, b)
    | none =>
      if c = ']' ∧ rest.head? = some '(' then some ([], rest.tail) else none

/-- The character class of both capture groups: anything but a closing
parenthesis. -/
def notCloseParen (c : Char) : Bool := c != ')'

/-- Attempt to match, right after an opening bracket, the remainder of
the regex from replace_md_link_extensions_with_html (source line 258):
a greedy text group of non-close-paren characters, a literal
close-bracket open-paren pair, a greedy url group, and a closing
parenthesis.  Returns the two captured groups and the text after the
match. -/
def tryMatch (rest : Str) : Option (Str × Str × Str) :=
  match rest.dropWhile notCloseParen with
  | [] => none
  | _ :: tail =>
    match splitLastRB (rest.takeWhile notCloseParen) with
    | none => none
    | some (g1, g2) => some (g1, g2, tail)

/-- The url transformation of the replacement closure (source lines
261 to 273): when the url is a relative path whose extension lowercases
to md, replace the extension by html, otherwise keep the url. -/
def transformUrl (url : Str) : Str :=
  if isRelative url = true ∧ (pathExt url).map (List.map asciiLower) = some ['m', 'd']
  then withExt url ['h', 't', 'm', 'l']
  else url

/-- Fuelled left-to-right scan implementing Regex::replace_all for the
link pattern: at each position, if an opening bracket starts a match,
emit the rebuilt link with the transformed url and continue after the
match, otherwise copy one character.  Each step consumes at least one
character, so fuel equal to the length of the input suffices. -/
def scanReplFuel : Nat → Str → Str
  | 0, s => s
  | _ + 1, [] => []
  | fuel + 1, c :: rest =>
    if c = '[' then
      match tryMatch rest with
      | some (g1, g2, rest2) =>
        c :: (g1 ++ ']' :: '(' :: (transformUrl g2 ++ ')' :: scanReplFuel fuel rest2))
      | none => c :: scanReplFuel fuel rest
    else c :: scanReplFuel fuel rest

/-- The link-rewriting pass of the source (lines 257 to 276). -/
def replace_md_link_extensions_with_html (markdown : Str) : Str :=
  scanReplFuel markdown.length markdown

/-- The markdown document tree (the mdast node kinds the source
inspects, per the StringContents impl at lines 324 to 343); every node
kind outside the listed set is collapsed into the childless other case,
whose textual content is empty exactly as in the source catch-all. -/
inductive MdNode where
  | text : Str → MdNode
  | inlineCode : Str → MdNode
  | inlineMath : Str → MdNode
  | link : List MdNode → MdNode
  | paragraph : List MdNode → MdNode
  | emphasis : List MdNode → MdNode
  | strong : List MdNode → MdNode
  | heading : Nat → List MdNode → MdNode
  | root : List MdNode → MdNode
  | other : MdNode

mutual

/-- StringContents for mdast::Node (source lines 324 to 337): text,
inline code and inline math yield their value; links, paragraphs,
emphasis and strong unwrap to the contents of their children; anything
else yields the empty string. -/
def get_string_contents : MdNode → Str
  | MdNode.text v => v
  | MdNode.inlineCode v => v
  | MdNode.inlineMath v => v
  | MdNode.link cs => get_string_contents_list cs
  | MdNode.paragraph cs => get_string_contents_list cs
  | MdNode.emphasis cs => get_string_contents_list cs
  | MdNode.strong cs => get_string_contents_list cs
  | MdNode.heading _ _ => []
  | MdNode.root _ => []
  | MdNode.other => []

/-- StringContents for Vec of mdast::Node (source lines 339 to 343):
concatenation over the list. -/
def get_string_contents_list : List MdNode → Str
  | [] => []
  | n :: rest => get_string_contents n ++ get_string_contents_list rest

end

/-- Node::children of the mdast crate: container nodes expose their
child list, leaf nodes have none. -/
def childrenOf : MdNode → Option (List MdNode)
  | MdNode.link cs => some cs
  | MdNode.paragraph cs => some cs
  | MdNode.emphasis cs => some cs
  | MdNode.strong cs => some cs
  | MdNode.heading _ cs => some cs
  | MdNode.root cs => some cs
  | _ => none

/-- The loop body of get_file_title_html_tag: first direct child that
is a heading of depth one, with the loop break; deeper headings are
skipped, container children are not entered. -/
def findFirstH1 : List MdNode → Option Str
  | [] => none
  | MdNode.heading d cs :: rest =>
    if d = 1 then some (get_string_contents_list cs) else findFirstH1 rest
  | _ :: rest => findFirstH1 rest

/-- Is a node a heading of depth one. -/
def isH1 : MdNode → Bool
  | MdNode.heading d _ => decide (d = 1)
  | _ => false

/-- Title extraction (source lines 289 to 307): scan the direct
children of the document node for the first heading of depth one and
wrap its textual contents in a title tag. -/
def get_file_title_html_tag (ast : MdNode) : Option Str :=
  match childrenOf ast with
  | none => none
  | some children =>
    (findFirstH1 children).map
      (fun t => "<title>".data ++ t ++ "</title>\n".data)

/-- The resolved configuration the core receives (source struct Config,
lines 41 to 48).  The input and output roots are left implicit because
every path in this model is taken relative to the respective root; the
stylesheet field stores the stylesheet contents, with presence meaning
a configured, existing stylesheet. -/
structure Config where
  stylesheet : Option Str
  header : Option Str
  footer : Option Str

/-- True when the first raw chunk of the path is a single dot: the one
place the Rust components iterator keeps a current-directory
component. -/
def leadingCurDir (p : Str) : Bool :=
  decide ((splitOnSlash p).head? = some ['.'])

/-- Number of components of a path, as Components::count in Rust: a
root component for a leading slash, a current-directory component for a
leading dot chunk, plus every normal or parent-directory chunk. -/
def componentsCount (p : Str) : Nat :=
  (if p.head? = some '/' then 1 else 0)
    + (if leadingCurDir p then 1 else 0)
    + (pathChunks p).length

/-- Stylesheet link element (source lines 309 to 318): none without a
configured stylesheet; otherwise the href climbs one parent-directory
token per nesting level of the output file, then names style.css. -/
def get_html_style_link_tag (config : Config) (output_file_relative : Str) : Option Str :=
  match config.stylesheet with
  | none => none
  | some _ =>
    some ("<link rel=\"stylesheet\" href=\"".data
      ++ (List.replicate (componentsCount output_file_relative - 1) "../".data).flatten
      ++ "style.css".data ++ "\">".data)

/-- The output tree, as a list of output files keyed by path relative
to the output root, with their byte contents. -/
abbrev FS := List (Str × Str)

/-- Write one output file: overwrite the entry when the path exists,
append it otherwise. -/
def setFile (path content : Str) : FS → FS
  | [] => [(path, content)]
  | (q, c) :: rest =>
    if q = path then (q, content) :: rest else (q, c) :: setFile path content rest

/-- Join a relative directory prefix with an entry name. -/
def joinPath (p name : Str) : Str :=
  if p = [] then name else p ++ '/' :: name

/-- The markdown test of compile_all (source line 175): the extension,
defaulted to empty when absent, lowercases to md. -/
def isMdPath (p : Str) : Bool :=
  decide (((pathExt p).getD []).map asciiLower = ['m', 'd'])

/-- The complete text of one compiled output page, in the exact write
order of compile_file (source lines 188 to 238): head opening, the
optional title tag, the optional stylesheet link, head close and body
open, the optional header, the rendered body produced from the
link-rewritten source, the optional footer, body close.  The functions
to_html and to_mdast of the external markdown crate are taken as
parameters. -/
def compile_file_output (to_html : Str → Str) (to_mdast : Str → MdNode)
    (cfg : Config) (output_file_relative : Str) (content : Str) : Str :=
  "<head>\n".data
    ++ ((get_file_title_html_tag (to_mdast content)).getD [])
    ++ ((get_html_style_link_tag cfg output_file_relative).getD [])
    ++ "\n</head>\n<body>\n".data
    ++ (cfg.header.getD [])
    ++ to_html (replace_md_link_extensions_with_html content)
    ++ (cfg.footer.getD [])
    ++ "</body>".data

/-- Single-file compile (source lines 188 to 238): the output path is
the input path relative to the input root with its extension replaced
by html, and the file is fully regenerated there.  The input path is
given relative to the input root together with the bytes read from the
input file. -/
def compile_file (to_html : Str → Str) (to_mdast : Str → MdNode)
    (cfg : Config) (input_rel : Str) (content : Str) (fs : FS) : FS :=
  let output_file_relative := withExt input_rel ['h', 't', 'm', 'l']
  setFile output_file_relative
    (compile_file_output to_html to_mdast cfg output_file_relative content) fs

/-- copy_stylesheet_to_output_dir (source lines 278 to 287): when a
stylesheet is configured and exists, its bytes are copied to the fixed
name style.css at the output root. -/
def copy_stylesheet_to_output_dir (cfg : Config) (fs : FS) : FS :=
  match cfg.stylesheet with
  | some content => setFile "style.css".data content fs
  | none => fs

/-- One input tree entry: a regular file with its bytes, or a
subdirectory with its entries in directory-read order. -/
inductive InTree where
  | file : Str → Str → InTree
  | dir : Str → List InTree → InTree

mutual

/-- Handling of one directory entry inside compile_all_recurse (source
lines 161 to 181): a subdirectory is entered recursively; a markdown
file goes through compile_file; any other file is byte-copied to the
mirrored relative path.  Per-file filesystem failures (creating the
parent directory, the copy, or the writes inside compile_file) panic
in the source with a diagnostic; they are injected here through
failPaths, the set of relative paths whose per-file operation fails,
and abort the whole compile. -/
def compile_entry (to_html : Str → Str) (to_mdast : Str → MdNode)
    (cfg : Config) (failPaths : List Str) :
    InTree → Str → FS → Except Str FS
  | InTree.file name content, p, fs =>
    let rel := joinPath p name
    if rel ∈ failPaths then Except.error rel
    else
      Except.ok
        (if isMdPath rel then compile_file to_html to_mdast cfg rel content fs
         else setFile rel content fs)
  | InTree.dir name sub, p, fs =>
    compile_entries to_html to_mdast cfg failPaths sub (joinPath p name) fs

/-- The entry loop of compile_all_recurse (source lines 160 to 183),
in directory-read order; the first per-file failure aborts the run. -/
def compile_entries (to_html : Str → Str) (to_mdast : Str → MdNode)
    (cfg : Config) (failPaths : List Str) :
    List InTree → Str → FS → Except Str FS
  | [], _, fs => Except.ok fs
  | e :: rest, p, fs =>
    match compile_entry to_html to_mdast cfg failPaths e p fs with
    | Except.error er => Except.error er
    | Except.ok fs2 => compile_entries to_html to_mdast cfg failPaths rest p fs2

end

/-- Full compile (source lines 154 to 186).  The results of
fs::remove_dir_all and fs::create_dir_all are bound to underscore in
the source, so they are received here as explicit outcomes whose error
case is discarded: a successful removal empties the output tree, a
failed one leaves it in place, and either way compilation proceeds
with the stylesheet copy and the recursive walk. -/
def compile_all (to_html : Str → Str) (to_mdast : Str → MdNode) (cfg : Config)
    (rmResult crResult : Except Str Unit) (failPaths : List Str)
    (tree : List InTree) (fs : FS) : Except Str FS :=
  let fs0 := match rmResult with
    | Except.ok _ => ([] : FS)
    | Except.error _ => fs
  let _ := crResult
  compile_entries to_html to_mdast cfg failPaths tree []
    (copy_stylesheet_to_output_dir cfg fs0)

mutual

/-- Does the per-file operation of some file below this entry fail,
mirroring the recursion of compile_entry. -/
def entryFails (failPaths : List Str) : InTree → Str → Bool
  | InTree.file name _, p => decide (joinPath p name ∈ failPaths)
  | InTree.dir name sub, p => entriesFailList failPaths sub (joinPath p name)

/-- Does some per-file operation fail among a list of entries. -/
def entriesFailList (failPaths : List Str) : List InTree → Str → Bool
  | [], _ => false
  | e :: rest, p =>
    entryFails failPaths e p || entriesFailList failPaths rest p

end

/-- Is an exceptional computation successful. -/
def isOkE {ε α : Type} : Except ε α → Bool
  | Except.ok _ => true
  | Except.error _ => false

/-- Input filesystem node for the tree walker: a missing path (the
walker may be pointed at a nonexistent root), a regular file, a
directory whose read fails with an io error message, or a readable
directory with its entries in read order. -/
inductive WFs where
  | missing : WFs
  | file : Str → WFs
  | dirErr : Str → Str → WFs
  | dir : Str → List WFs → WFs

mutual

/-- The tree walker walk_dir (source lines 240 to 255): a path that is
not a directory yields the empty list without error; a directory whose
read fails propagates the io error; otherwise the entries are walked.
The first argument is the path of the node itself. -/
def walk_dir (p : Str) : WFs → Except Str (List Str)
  | WFs.dir _ entries => walk_entries p entries
  | WFs.dirErr _ e => Except.error e
  | _ => Except.ok []

/-- The entry loop of walk_dir (source lines 244 to 252): directory
entries recurse through walk_dir and their results are spliced in
order, with the question-mark operator propagating the first io error;
file entries are pushed; a missing node never occurs among directory
entries and is skipped.  The first argument is the path of the
containing directory. -/
def walk_entries (p : Str) : List WFs → Except Str (List Str)
  | [] => Except.ok []
  | c :: rest =>
    match c with
    | WFs.dir name _ =>
      match walk_dir (joinPath p name) c with
      | Except.error e => Except.error e
      | Except.ok subPaths =>
        match walk_entries p rest with
        | Except.error e => Except.error e
        | Except.ok more => Except.ok (subPaths ++ more)
    | WFs.dirErr name _ =>
      match walk_dir (joinPath p name) c with
      | Except.error e => Except.error e
      | Except.ok subPaths =>
        match walk_entries p rest with
        | Except.error e => Except.error e
        | Except.ok more => Except.ok (subPaths ++ more)
    | WFs.file name =>
      match walk_entries p rest with
      | Except.error e => Except.error e
      | Except.ok more => Except.ok (joinPath p name :: more)
    | WFs.missing => walk_entries p rest

end

mutual

/-- Does a node contain a directory whose read fails. -/
def hasUnreadable : WFs → Bool
  | WFs.dirErr _ _ => true
  | WFs.dir _ sub => hasUnreadableList sub
  | _ => false

/-- Does some node of the list contain a directory whose read fails. -/
def hasUnreadableList : List WFs → Bool
  | [] => false
  | c :: rest => hasUnreadable c || hasUnreadableList rest

end

/-- Lookup in the modification-time registry, modelling HashMap entry
presence; the registry is an association list keyed by input path. -/
def lookupReg : List (Str × Nat) → Str → Option Nat
  | [], _ => none
  | (k, v) :: rest, p => if k = p then some v else lookupReg rest p

/-- One polling tick of watch_mode (the loop body, source lines 129 to
149) over the observed walk results: each observed path carries its
metadata outcome, none when fs::metadata fails (the path is then
skipped entirely), some t for the observed modification time with
unreadable modification times already defaulted to epoch zero.  A path
present in the registry is recompiled when its observed time is
strictly newer, and the Occupied branch of the source performs no
registry update; an absent path is inserted and compiled.  Returns the
new registry, the new output tree, and the list of paths compiled this
tick in order. -/
def watch_tick (to_html : Str → Str) (to_mdast : Str → MdNode)
    (read_input : Str → Str) (cfg : Config)
    (reg : List (Str × Nat)) (obs : List (Str × Option Nat)) (fs : FS) :
    List (Str × Nat) × FS × List Str :=
  match obs with
  | [] => (reg, fs, [])
  | (_, none) :: rest => watch_tick to_html to_mdast read_input cfg reg rest fs
  | (path, some t) :: rest =>
    match lookupReg reg path with
    | some recTime =>
      if recTime < t then
        let fs2 := compile_file to_html to_mdast cfg path (read_input path) fs
        let next := watch_tick to_html to_mdast read_input cfg reg rest fs2
        (next.1, next.2.1, path :: next.2.2)
      else watch_tick to_html to_mdast read_input cfg reg rest fs
    | none =>
      let fs2 := compile_file to_html to_mdast cfg path (read_input path) fs
      let next := watch_tick to_html to_mdast read_input cfg ((path, t) :: reg) rest fs2
      (next.1, next.2.1, path :: next.2.2)

/-- Decidable equality for exceptional results, used to evaluate the
model on concrete inputs. -/
instance {ε α : Type} [DecidableEq ε] [DecidableEq α] : DecidableEq (Except ε α) := fun x y =>
  match x, y with
  | Except.ok a, Except.ok b =>
    if h : a = b then isTrue (by rw [h]) else isFalse (fun hc => by cases hc; exact h rfl)
  | Except.error a, Except.error b =>
    if h : a = b then isTrue (by rw [h]) else isFalse (fun hc => by cases hc; exact h rfl)
  | Except.ok _, Except.error _ => isFalse (fun hc => by cases hc)
  | Except.error _, Except.ok _ => isFalse (fun hc => by cases hc)

/-- A concrete renderer used for witnesses: the identity on the
link-rewritten markdown text. -/
def idRender : Str → Str := fun s => s

/-- A concrete parser used for witnesses: every document parses to an
empty root. -/
def emptyAst : Str → MdNode := fun _ => MdNode.root []

/-- A concrete input reader used for witnesses. -/
def constRead : Str → Str := fun _ => "hi".data

/-- A configuration with no stylesheet, header or footer, used for
witnesses. -/
def plainConfig : Config := ⟨none, none, none⟩

/-! Helper lemmas about the regex scan. -/

theorem takeWhile_append_of_all (l₁ l₂ : Str)
    (h : ∀ c ∈ l₁, notCloseParen c = true) :
    (l₁ ++ l₂).takeWhile notCloseParen = l₁ ++ l₂.takeWhile notCloseParen := by
  induction l₁ with
  | nil => simp
  | cons c rest ih =>
    have hc := h c (by simp)
    simp [List.takeWhile_cons, hc, ih (fun x hx => h x (by simp [hx]))]

theorem dropWhile_append_of_all (l₁ l₂ : Str)
    (h : ∀ c ∈ l₁, notCloseParen c = true) :
    (l₁ ++ l₂).dropWhile notCloseParen = l₂.dropWhile notCloseParen := by
  induction l₁ with
  | nil => simp
  | cons c rest ih =>
    have hc := h c (by simp)
    simp [List.dropWhile_cons, hc, ih (fun x hx => h x (by simp [hx]))]

theorem dropWhile_eq_nil_of_all (l : Str)
    (h : ∀ c ∈ l, notCloseParen c = true) :
    l.dropWhile notCloseParen = [] := by
  induction l with
  | nil => rfl
  | cons c rest ih =>
    have hc := h c (by simp)
    simp [List.dropWhile_cons, hc, ih (fun x hx => h x (by simp [hx]))]

theorem splitLastRB_eq_none (u : Str) :
    splitLastRB u = none ↔ hasRB u = false := by
  induction u with
  | nil => simp [splitLastRB, hasRB]
  | cons c rest ih =>
    cases hres : splitLastRB rest with
    | some q =>
      obtain ⟨a, b⟩ := q
      have hr : hasRB rest = true := by
        rcases hb : hasRB rest with _ | _
        · rw [ih.mpr hb] at hres; cases hres
        · rfl
      simp [splitLastRB, hasRB, hres, hr]
    | none =>
      have hr : hasRB rest = false := ih.mp hres
      by_cases hcond : (c = ']' ∧ rest.head? = some '(')
      · simp [splitLastRB, hasRB, hres, hcond]
      · simp [splitLastRB, hasRB, hres, hcond, hr]

theorem splitLastRB_link (t u : Str) (hu : hasRB u = false) :
    splitLastRB (t ++ ']' :: '(' :: u) = some (t, u) := by
  induction t with
  | nil =>
    have h0 : hasRB ('(' :: u) = hasRB u := rfl
    have h1 : splitLastRB ('(' :: u) = none :=
      (splitLastRB_eq_none _).mpr (h0.trans hu)
    rw [List.nil_append, splitLastRB, h1]
    simp
  | cons c rest ih =>
    simp [splitLastRB, ih]

theorem tryMatch_link (t u rest : Str)
    (ht : ∀ c ∈ t, notCloseParen c = true)
    (hu2 : ∀ c ∈ u, notCloseParen c = true)
    (hu : hasRB u = false) :
    tryMatch (t ++ ']' :: '(' :: (u ++ ')' :: rest)) = some (t, u, rest) := by
  have hall : ∀ c ∈ t ++ ']' :: '(' :: u, notCloseParen c = true := by
    intro c hc
    rcases List.mem_append.mp hc with h | h
    · exact ht c h
    · simp only [List.mem_cons] at h
      rcases h with h | h | h
      · subst h; decide
      · subst h; decide
      · exact hu2 c h
  have d1 : ∀ l : Str, List.dropWhile notCloseParen (']' :: '(' :: l)
      = List.dropWhile notCloseParen l := fun l => rfl
  have d2 : ∀ l : Str, List.dropWhile notCloseParen (')' :: l) = ')' :: l :=
    fun l => rfl
  have t1 : ∀ l : Str, List.takeWhile notCloseParen (']' :: '(' :: l)
      = ']' :: '(' :: List.takeWhile notCloseParen l := fun l => rfl
  have t2 : ∀ l : Str, List.takeWhile notCloseParen (')' :: l) = [] :=
    fun l => rfl
  have hdrop : List.dropWhile notCloseParen (t ++ ']' :: '(' :: (u ++ ')' :: rest))
      = ')' :: rest := by
    rw [dropWhile_append_of_all t _ ht, d1, dropWhile_append_of_all u _ hu2, d2]
  have htake : List.takeWhile notCloseParen (t ++ ']' :: '(' :: (u ++ ')' :: rest))
      = t ++ ']' :: '(' :: u := by
    rw [takeWhile_append_of_all t _ ht, t1, takeWhile_append_of_all u _ hu2, t2]
    simp
  simp only [tryMatch]
  rw [hdrop, htake, splitLastRB_link t u hu]

theorem scanReplFuel_nil (f : Nat) : scanReplFuel f [] = [] := by
  cases f <;> rfl

theorem scanReplFuel_link (f : Nat) (t u : Str)
    (ht : ∀ c ∈ t, notCloseParen c = true)
    (hu2 : ∀ c ∈ u, notCloseParen c = true)
    (hu : hasRB u = false) (hf : 1 ≤ f) :
    scanReplFuel f ('[' :: (t ++ ']' :: '(' :: (u ++ [')']))) =
      '[' :: (t ++ ']' :: '(' :: (transformUrl u ++ [')'])) := by
  obtain ⟨g, rfl⟩ : ∃ g, f = g + 1 := ⟨f - 1, by omega⟩
  have hm := tryMatch_link t u [] ht hu2 hu
  simp [scanReplFuel, hm, scanReplFuel_nil]

theorem mem_to_notCloseParen (s : Str) (h : ')' ∉ s) :
    ∀ c ∈ s, notCloseParen c = true := by
  intro c hc
  simp only [notCloseParen, bne_iff_ne, ne_eq]
  intro hcp
  subst hcp
  exact h hc

theorem scanReplFuel_no_paren (f : Nat) :
    ∀ s : Str, s.length ≤ f → (∀ c ∈ s, notCloseParen c = true) →
      scanReplFuel f s = s := by
  induction f with
  | zero => intro s _ _; rfl
  | succ g ih =>
    intro s hlen hall
    match s with
    | [] => rfl
    | c :: rest =>
      have hallr : ∀ x ∈ rest, notCloseParen x = true :=
        fun x hx => hall x (List.mem_cons_of_mem _ hx)
      have hlenr : rest.length ≤ g := by
        simp only [List.length_cons] at hlen; omega
      by_cases hc : c = '['
      · subst hc
        have hdrop := dropWhile_eq_nil_of_all rest hallr
        have hnone : tryMatch rest = none := by simp [tryMatch, hdrop]
        simp [scanReplFuel, hnone, ih rest hlenr hallr]
      · simp [scanReplFuel, hc, ih rest hlenr hallr]

/-- C4: for every inline link whose URL is a relative path ending in a
case-insensitive md extension, the link-rewriting pass replaces that
extension with html while leaving the link text unchanged; and the
concrete link with target pic.png is left unchanged.  The quantified
part covers every single-match link: text and url free of closing
parentheses (the character class of the regex) and a url not
containing a close-bracket open-paren pair (so the match is
unambiguous). -/
theorem c4_relative_md_link_rewritten :
    (∀ t u : Str, ')' ∉ t → ')' ∉ u → hasRB u = false →
      isRelative u = true →
      (pathExt u).map (List.map asciiLower) = some ['m', 'd'] →
      replace_md_link_extensions_with_html
          ('[' :: (t ++ ']' :: '(' :: (u ++ [')']))) =
        '[' :: (t ++ ']' :: '(' :: (withExt u ['h', 't', 'm', 'l'] ++ [')'])))
    ∧ replace_md_link_extensions_with_html "[Image](pic.png)".data
        = "[Image](pic.png)".data := by
  constructor
  · intro t u ht hu hrb hrel hext
    have ht2 := mem_to_notCloseParen t ht
    have hu2 := mem_to_notCloseParen u hu
    unfold replace_md_link_extensions_with_html
    rw [scanReplFuel_link _ t u ht2 hu2 hrb (by simp)]
    simp [transformUrl, hrel, hext]
  · decide

/-- Witness for C4 at the example of the specification: the link with
text See also and target notes.md is rewritten to target notes.html. -/
theorem c4_relative_md_link_rewritten_witness :
    (')' ∉ "See also".data ∧ ')' ∉ "notes.md".data ∧
      hasRB "notes.md".data = false ∧ isRelative "notes.md".data = true ∧
      (pathExt "notes.md".data).map (List.map asciiLower) = some ['m', 'd'])
    ∧ replace_md_link_extensions_with_html "[See also](notes.md)".data
        = "[See also](notes.html)".data := by
  refine ⟨by decide, ?_⟩
  have h := c4_relative_md_link_rewritten.1 "See also".data "notes.md".data
    (by decide) (by decide) (by decide) (by decide) (by decide)
  exact h

/-- C2 as stated is false: the source tests Path::is_relative on the
raw URL string, and on Unix a URL such as
https://example.com/readme.md has no leading slash and therefore IS
relative, so its md extension is rewritten to html. -/
theorem c2_external_md_url_rewritten :
    replace_md_link_extensions_with_html
        "[External](https://example.com/readme.md)".data =
      "[External](https://example.com/readme.html)".data
    ∧ replace_md_link_extensions_with_html
        "[External](https://example.com/readme.md)".data ≠
      "[External](https://example.com/readme.md)".data := by
  constructor <;> decide

/-- C2 amended: only URLs that are absolute in the filesystem sense,
that is URLs starting with a slash, are left unchanged by the
link-rewriting pass (URL schemes such as https count as relative and
are rewritten when they end in md). -/
theorem c2_absolute_url_unchanged :
    ∀ t u : Str, ')' ∉ t → ')' ∉ u → hasRB u = false →
      isRelative u = false →
      replace_md_link_extensions_with_html
          ('[' :: (t ++ ']' :: '(' :: (u ++ [')']))) =
        '[' :: (t ++ ']' :: '(' :: (u ++ [')'])) := by
  intro t u ht hu hrb hrel
  have ht2 := mem_to_notCloseParen t ht
  have hu2 := mem_to_notCloseParen u hu
  unfold replace_md_link_extensions_with_html
  rw [scanReplFuel_link _ t u ht2 hu2 hrb (by simp)]
  simp [transformUrl, hrel]

/-- Witness for the amended C2: a link whose target is the absolute
path /docs/readme.md is left unchanged. -/
theorem c2_absolute_url_unchanged_witness :
    (')' ∉ "abs".data ∧ ')' ∉ "/docs/readme.md".data ∧
      hasRB "/docs/readme.md".data = false ∧
      isRelative "/docs/readme.md".data = false)
    ∧ replace_md_link_extensions_with_html "[abs](/docs/readme.md)".data
        = "[abs](/docs/readme.md)".data := by
  refine ⟨by decide, ?_⟩
  exact c2_absolute_url_unchanged "abs".data "/docs/readme.md".data
    (by decide) (by decide) (by decide) (by decide)

/-- C3 as stated is false for images: the regex of the source does not
exclude a preceding exclamation mark, so the bracket-paren part of the
image syntax matches and the image target pic.md is rewritten to
pic.html. -/
theorem c3_image_link_rewritten :
    replace_md_link_extensions_with_html "![Image](pic.md)".data ≠
      "![Image](pic.md)".data
    ∧ replace_md_link_extensions_with_html "![Image](pic.md)".data =
      "![Image](pic.html)".data := by
  constructor <;> decide

/-- C3 amended: the pass rewrites every occurrence of the
bracket-paren link shape, including the one inside image syntax;
text containing no closing parenthesis at all, which covers
reference-style links and autolinks, is left byte-for-byte
unchanged. -/
theorem c3_no_close_paren_unchanged :
    ∀ s : Str, ')' ∉ s → replace_md_link_extensions_with_html s = s :=
  fun s h =>
    scanReplFuel_no_paren s.length s (le_refl _) (mem_to_notCloseParen s h)

/-- Witness for the amended C3: a reference-style link and an autolink
are left unchanged. -/
theorem c3_no_close_paren_unchanged_witness :
    (')' ∉ "See [docs][ref] and <https://e.md> here".data)
    ∧ replace_md_link_extensions_with_html
        "See [docs][ref] and <https://e.md> here".data
      = "See [docs][ref] and <https://e.md> here".data := by
  refine ⟨by decide, ?_⟩
  exact c3_no_close_paren_unchanged "See [docs][ref] and <https://e.md> here".data
    (by decide)

/-! Title extraction. -/

theorem findFirstH1_eq_none :
    ∀ cs : List MdNode, (∀ n ∈ cs, isH1 n = false) → findFirstH1 cs = none := by
  intro cs
  induction cs with
  | nil => intro _; rfl
  | cons n rest ih =>
    intro h
    have hrest : ∀ m ∈ rest, isH1 m = false :=
      fun m hm => h m (List.mem_cons_of_mem _ hm)
    have hn := h n (List.mem_cons_self _ _)
    cases n with
    | heading d cs2 =>
      have hd : ¬ d = 1 := by simpa [isH1] using hn
      simp [findFirstH1, hd, ih hrest]
    | text v => simp [findFirstH1, ih hrest]
    | inlineCode v => simp [findFirstH1, ih hrest]
    | inlineMath v => simp [findFirstH1, ih hrest]
    | link cs2 => simp [findFirstH1, ih hrest]
    | paragraph cs2 => simp [findFirstH1, ih hrest]
    | emphasis cs2 => simp [findFirstH1, ih hrest]
    | strong cs2 => simp [findFirstH1, ih hrest]
    | root cs2 => simp [findFirstH1, ih hrest]
    | other => simp [findFirstH1, ih hrest]

/-- C5 as stated is false in one point: a document whose FIRST heading
has depth two but which contains a later top-level heading of depth
one does produce a title, because the loop of the source skips
headings of other depths instead of stopping at the first heading. -/
theorem c5_h2_then_h1_still_titled :
    get_file_title_html_tag
        (MdNode.root [MdNode.heading 2 [], MdNode.heading 1 [MdNode.text "X".data]])
      = some "<title>X</title>\n".data
    ∧ get_file_title_html_tag
        (MdNode.root [MdNode.heading 2 [], MdNode.heading 1 [MdNode.text "X".data]])
      ≠ none := by
  constructor <;> decide

/-- C5 amended: title extraction scans only the direct top-level nodes
for the first heading of depth one and concatenates its inline textual
content recursively, so the document starting with the parsed form of
the heading Hello World in emphasis yields that title; a document none
of whose direct children is a depth-one heading yields no title; and a
leading depth-two heading is skipped, the result being that of the
remaining children. -/
theorem c5_title_extraction :
    (∀ rest : List MdNode,
      get_file_title_html_tag (MdNode.root
          (MdNode.heading 1 [MdNode.text "Hello ".data,
            MdNode.emphasis [MdNode.text "World".data]] :: rest))
        = some "<title>Hello World</title>\n".data)
    ∧ (∀ cs : List MdNode, (∀ n ∈ cs, isH1 n = false) →
        get_file_title_html_tag (MdNode.root cs) = none)
    ∧ (∀ (cs2 rest : List MdNode),
        get_file_title_html_tag (MdNode.root (MdNode.heading 2 cs2 :: rest))
          = get_file_title_html_tag (MdNode.root rest)) := by
  refine ⟨fun rest => rfl, ?_, fun cs2 rest => rfl⟩
  intro cs h
  simp [get_file_title_html_tag, childrenOf, findFirstH1_eq_none cs h]

/-- Witness for C5: a document whose only heading has depth two yields
no title. -/
theorem c5_title_extraction_witness :
    (∀ n ∈ [MdNode.heading 2 [MdNode.text "Sub".data],
        MdNode.paragraph [MdNode.text "body".data]], isH1 n = false)
    ∧ get_file_title_html_tag (MdNode.root
        [MdNode.heading 2 [MdNode.text "Sub".data],
          MdNode.paragraph [MdNode.text "body".data]]) = none := by
  refine ⟨by decide, ?_⟩
  exact c5_title_extraction.2.1 _ (by decide)

/-! Stylesheet link tag. -/

/-- C6: for every output file, the stylesheet href repeats the
parent-directory token once per directory level of nesting below the
output root and ends in the fixed name style.css.  The output path is
characterised through its parsed components: a list of directory
chunks followed by the file name chunk, no leading slash, no leading
current-directory chunk. -/
theorem c6_style_href_nesting :
    ∀ (css : Str) (hdr ftr : Option Str) (p fname : Str) (dirs : List Str),
      pathChunks p = dirs ++ [fname] →
      p.head? ≠ some '/' →
      leadingCurDir p = false →
      get_html_style_link_tag ⟨some css, hdr, ftr⟩ p =
        some ("<link rel=\"stylesheet\" href=\"".data
          ++ (List.replicate dirs.length "../".data).flatten
          ++ "style.css".data ++ "\">".data) := by
  intro css hdr ftr p fname dirs hchunks habs hcur
  have hcount : componentsCount p = dirs.length + 1 := by
    simp [componentsCount, hchunks, habs, hcur]
  simp [get_html_style_link_tag, hcount]

/-- Witness for C6: a file two directories deep gets two
parent-directory tokens, and a file at the output root gets none. -/
theorem c6_style_href_nesting_witness :
    (pathChunks "d1/d2/f.html".data = ["d1".data, "d2".data] ++ ["f.html".data]
      ∧ "d1/d2/f.html".data.head? ≠ some '/'
      ∧ leadingCurDir "d1/d2/f.html".data = false)
    ∧ get_html_style_link_tag ⟨some "x".data, none, none⟩ "d1/d2/f.html".data
        = some "<link rel=\"stylesheet\" href=\"../../style.css\">".data
    ∧ get_html_style_link_tag ⟨some "x".data, none, none⟩ "f.html".data
        = some "<link rel=\"stylesheet\" href=\"style.css\">".data := by
  refine ⟨⟨by decide, by decide, by decide⟩, ?_, by decide⟩
  have h := c6_style_href_nesting "x".data none none "d1/d2/f.html".data
    "f.html".data ["d1".data, "d2".data] (by decide) (by decide) (by decide)
  rw [h]
  decide

/-! The tree walker. -/

mutual

theorem walk_dir_isOk (p : Str) (n : WFs) :
    isOkE (walk_dir p n) = ! hasUnreadable n := by
  cases n with
  | missing => rfl
  | file name => rfl
  | dirErr name e => rfl
  | dir name entries =>
    simpa [walk_dir, hasUnreadable] using walk_entries_isOk p entries

theorem walk_entries_isOk (p : Str) (es : List WFs) :
    isOkE (walk_entries p es) = ! hasUnreadableList es := by
  cases es with
  | nil => rfl
  | cons c rest =>
    cases c with
    | missing =>
      simpa [walk_entries, hasUnreadableList, hasUnreadable]
        using walk_entries_isOk p rest
    | file name =>
      have ih := walk_entries_isOk p rest
      cases hres : walk_entries p rest with
      | error e =>
        rw [hres] at ih
        have hr : hasUnreadableList rest = true := by simpa using ih.symm
        simp [walk_entries, hres, hasUnreadableList, hasUnreadable, isOkE, hr]
      | ok more =>
        rw [hres] at ih
        have hr : hasUnreadableList rest = false := by simpa using ih.symm
        simp [walk_entries, hres, hasUnreadableList, hasUnreadable, isOkE, hr]
    | dirErr name e =>
      simp [walk_entries, walk_dir, hasUnreadableList, hasUnreadable, isOkE]
    | dir name sub =>
      have ih1 := walk_dir_isOk (joinPath p name) (WFs.dir name sub)
      have ih2 := walk_entries_isOk p rest
      simp only [walk_entries]
      cases h1 : walk_dir (joinPath p name) (WFs.dir name sub) with
      | error e =>
        rw [h1] at ih1
        have hd : hasUnreadable (WFs.dir name sub) = true := by
          simpa using ih1.symm
        simp [hasUnreadableList, isOkE, hd]
      | ok subPaths =>
        rw [h1] at ih1
        have hd : hasUnreadable (WFs.dir name sub) = false := by
          simpa using ih1.symm
        cases h2 : walk_entries p rest with
        | error e2 =>
          rw [h2] at ih2
          have hr : hasUnreadableList rest = true := by simpa using ih2.symm
          simp [hasUnreadableList, isOkE, hd, hr]
        | ok more =>
          rw [h2] at ih2
          have hr : hasUnreadableList rest = false := by simpa using ih2.symm
          simp [hasUnreadableList, isOkE, hd, hr]

end

/-- C8: the tree walker returns an empty result, not an error, for a
missing root, for a root that is a plain file, and for an empty
directory; and whenever some directory in the tree cannot be read, the
whole walk returns an io error (the exceptional return discards any
partially collected paths). -/
theorem c8_walk_dir_contract :
    (∀ p : Str, walk_dir p WFs.missing = Except.ok [])
    ∧ (∀ p name : Str, walk_dir p (WFs.file name) = Except.ok [])
    ∧ (∀ p name : Str, walk_dir p (WFs.dir name []) = Except.ok [])
    ∧ (∀ (p : Str) (n : WFs), hasUnreadable n = true →
        ∃ e : Str, walk_dir p n = Except.error e) := by
  refine ⟨fun p => rfl, fun p name => rfl, fun p name => rfl, ?_⟩
  intro p n h
  have hok := walk_dir_isOk p n
  rw [h] at hok
  cases hw : walk_dir p n with
  | error e => exact ⟨e, rfl⟩
  | ok l => rw [hw] at hok; simp [isOkE] at hok

/-- Witness for C8: a directory containing an unreadable subdirectory
makes the whole walk fail. -/
theorem c8_walk_dir_contract_witness :
    hasUnreadable (WFs.dir "r".data [WFs.file "a".data,
        WFs.dirErr "d".data "eacces".data]) = true
    ∧ ∃ e : Str, walk_dir "src".data (WFs.dir "r".data [WFs.file "a".data,
        WFs.dirErr "d".data "eacces".data]) = Except.error e :=
  ⟨by decide, c8_walk_dir_contract.2.2.2 _ _ (by decide)⟩

/-! The full compile. -/

mutual

theorem compile_entry_isOk (th : Str → Str) (tm : Str → MdNode) (cfg : Config)
    (fail : List Str) (e : InTree) (p : Str) (fs : FS) :
    isOkE (compile_entry th tm cfg fail e p fs) = ! entryFails fail e p := by
  cases e with
  | file name content =>
    by_cases h : joinPath p name ∈ fail
    · simp [compile_entry, entryFails, h, isOkE]
    · simp [compile_entry, entryFails, h, isOkE]
  | dir name sub =>
    simpa [compile_entry, entryFails]
      using compile_entries_isOk th tm cfg fail sub (joinPath p name) fs

theorem compile_entries_isOk (th : Str → Str) (tm : Str → MdNode) (cfg : Config)
    (fail : List Str) (es : List InTree) (p : Str) (fs : FS) :
    isOkE (compile_entries th tm cfg fail es p fs) = ! entriesFailList fail es p := by
  cases es with
  | nil => rfl
  | cons e rest =>
    have ih1 := compile_entry_isOk th tm cfg fail e p fs
    simp only [compile_entries]
    cases h1 : compile_entry th tm cfg fail e p fs with
    | error er =>
      rw [h1] at ih1
      have hf : entryFails fail e p = true := by simpa using ih1.symm
      simp [entriesFailList, isOkE, hf]
    | ok fs2 =>
      rw [h1] at ih1
      have hf : entryFails fail e p = false := by simpa using ih1.symm
      simp only [h1]
      simp [entriesFailList, hf]
      exact compile_entries_isOk th tm cfg fail rest p fs2

end

/-- C7 as stated is false: errors from clearing the output tree and
creating the output root are bound to underscore in the source and
ignored, so a full compile with both operations failing still runs to
completion and produces the compiled page instead of terminating with
a diagnostic. -/
theorem c7_root_errors_do_not_terminate :
    compile_all idRender emptyAst plainConfig
        (Except.error "EACCES".data) (Except.error "EACCES".data) []
        [InTree.file "a.md".data "hi".data] [("stale".data, "x".data)]
      = Except.ok [("stale".data, "x".data),
          ("a.html".data, "<head>\n\n</head>\n<body>\nhi</body>".data)] := by
  decide

/-- C7 amended: filesystem errors while clearing the output tree or
creating the output root are ignored and the full compile continues;
whether the run terminates with a diagnostic depends only on the
per-file operations, never on those two outcomes. -/
theorem c7_root_errors_ignored :
    ∀ (th : Str → Str) (tm : Str → MdNode) (cfg : Config)
      (rm cr : Except Str Unit) (fail : List Str)
      (tree : List InTree) (fs : FS),
      isOkE (compile_all th tm cfg rm cr fail tree fs)
        = ! entriesFailList fail tree [] := by
  intro th tm cfg rm cr fail tree fs
  simp only [compile_all]
  exact compile_entries_isOk th tm cfg fail tree [] _

/-- C9: full compilation is idempotent; a second full compile over the
output tree produced by a first one yields that same output tree,
because a successful removal of the output directory makes the result
independent of the previous output state. -/
theorem c9_compile_all_idempotent :
    ∀ (th : Str → Str) (tm : Str → MdNode) (cfg : Config) (fail : List Str)
      (tree : List InTree) (fs fs1 : FS),
      compile_all th tm cfg (Except.ok ()) (Except.ok ()) fail tree fs
        = Except.ok fs1 →
      compile_all th tm cfg (Except.ok ()) (Except.ok ()) fail tree fs1
        = Except.ok fs1 := by
  intro th tm cfg fail tree fs fs1 h
  have e : compile_all th tm cfg (Except.ok ()) (Except.ok ()) fail tree fs1
      = compile_all th tm cfg (Except.ok ()) (Except.ok ()) fail tree fs := rfl
  rw [e]
  exact h

/-- Witness for C9: compiling a small tree twice, starting once from a
stale output and once from the produced output, gives the same bytes. -/
theorem c9_compile_all_idempotent_witness :
    (compile_all idRender emptyAst plainConfig (Except.ok ()) (Except.ok ()) []
        [InTree.file "a.md".data "hi".data] [("stale".data, "x".data)]
      = Except.ok [("a.html".data, "<head>\n\n</head>\n<body>\nhi</body>".data)])
    ∧ compile_all idRender emptyAst plainConfig (Except.ok ()) (Except.ok ()) []
        [InTree.file "a.md".data "hi".data]
        [("a.html".data, "<head>\n\n</head>\n<body>\nhi</body>".data)]
      = Except.ok [("a.html".data, "<head>\n\n</head>\n<body>\nhi</body>".data)] :=
  ⟨by decide,
    c9_compile_all_idempotent idRender emptyAst plainConfig []
      [InTree.file "a.md".data "hi".data]
      [("stale".data, "x".data)]
      [("a.html".data, "<head>\n\n</head>\n<body>\nhi</body>".data)]
      (by decide)⟩

/-! Watch mode. -/

/-- C1 is the intended behaviour but the code does not implement it:
in the Occupied branch of the watch loop the newly observed
modification time is never written back into the registry (the source
only reads the entry and calls compile_file), so after one
modification the registry still holds the old time and the very same
observation triggers a recompilation again on the next tick.  This
theorem evaluates the model at the failing input: registry holding
f.md at time 10, observed time 11 on two consecutive ticks; the first
tick compiles f.md and leaves the registry entry at 10, and the second
tick compiles f.md again, where the claim requires exactly one
recompilation and a registry update to 11. -/
theorem c1_modified_file_recompiles_every_tick :
    ((watch_tick idRender emptyAst constRead plainConfig
        [("f.md".data, 10)] [("f.md".data, some 11)] []).1
      = [("f.md".data, 10)])
    ∧ ((watch_tick idRender emptyAst constRead plainConfig
        [("f.md".data, 10)] [("f.md".data, some 11)] []).2.2
      = ["f.md".data])
    ∧ ((watch_tick idRender emptyAst constRead plainConfig
        (watch_tick idRender emptyAst constRead plainConfig
          [("f.md".data, 10)] [("f.md".data, some 11)] []).1
        [("f.md".data, some 11)]
        (watch_tick idRender emptyAst constRead plainConfig
          [("f.md".data, 10)] [("f.md".data, some 11)] []).2.1).2.2
      = ["f.md".data]) := by
  refine ⟨by decide, by decide, by decide⟩

/-- C10: every file the watch tick detects as modified (present with a
strictly newer time) or as new (absent from the registry) is passed to
the single-file markdown compile path, with no test on its extension:
the output is written at the mirrored path with the extension replaced
by html and holds the assembled page rendered from the file text, not
a byte copy. -/
theorem c10_watch_compiles_any_extension :
    ∀ (th : Str → Str) (tm : Str → MdNode) (ri : Str → Str) (cfg : Config)
      (reg : List (Str × Nat)) (path : Str) (t t2 : Nat) (fs : FS),
      (lookupReg reg path = some t → t < t2 →
        watch_tick th tm ri cfg reg [(path, some t2)] fs =
          (reg,
           setFile (withExt path ['h', 't', 'm', 'l'])
             (compile_file_output th tm cfg
               (withExt path ['h', 't', 'm', 'l']) (ri path)) fs,
           [path]))
      ∧ (lookupReg reg path = none →
        watch_tick th tm ri cfg reg [(path, some t2)] fs =
          ((path, t2) :: reg,
           setFile (withExt path ['h', 't', 'm', 'l'])
             (compile_file_output th tm cfg
               (withExt path ['h', 't', 'm', 'l']) (ri path)) fs,
           [path])) := by
  intro th tm ri cfg reg path t t2 fs
  constructor
  · intro hl hlt
    simp [watch_tick, hl, hlt, compile_file]
  · intro hl
    simp [watch_tick, hl, compile_file]

/-- Witness for C10: a changed png resource in the registry is
recompiled as markdown into pic.html rather than copied. -/
theorem c10_watch_compiles_any_extension_witness :
    (lookupReg [("pic.png".data, 10)] "pic.png".data = some 10 ∧ 10 < 11)
    ∧ watch_tick idRender emptyAst constRead plainConfig
        [("pic.png".data, 10)] [("pic.png".data, some 11)] [] =
      ([("pic.png".data, 10)],
       setFile (withExt "pic.png".data ['h', 't', 'm', 'l'])
         (compile_file_output idRender emptyAst plainConfig
           (withExt "pic.png".data ['h', 't', 'm', 'l'])
           (constRead "pic.png".data)) [],
       ["pic.png".data]) :=
  ⟨⟨by decide, by decide⟩,
    (c10_watch_compiles_any_extension idRender emptyAst constRead plainConfig
      [("pic.png".data, 10)] "pic.png".data 10 11 []).1 (by decide) (by decide)⟩
